import Mathlib

/-!
Verification of the tiny64 identifier generator (`src/main.rs`).

The development shallowly embeds the Rust source:

* `BASE64_ALPHABET`, `to_be_bytes`, `encodeGroups`, `base64_encode_u64`
  embed the pure encoder (`base64_encode_u64`, lines 8–45); strings are
  modelled as lists of byte values and Rust's byte-wise lexicographic
  string comparison as the boolean `lexLt`.
* `pack`, `generate_random_10bit`, `wait_next_millisecond`,
  `generate_tiny64_value`, `generate_many` embed the stateful generator
  (`generate_tiny64`, lines 47–126).  Wall-clock reads are passed in as an
  explicit list that each call to `current_time_ms` consumes from; the
  spin-wait consumes reads until one differs, and exhausting the list
  models the generator blocking forever (result `none`).
* `current_time_ms` embeds the clock conversion (lines 53–59): a reading
  before the Unix epoch panics in the source, modelled as `none`.
* `main_model` embeds the command-line dispatch of `main` (lines 165–176).
-/

namespace Tiny64

/-- The 64-symbol alphabet of `src/main.rs` line 8, as ASCII codes:
`-0123456789ABCDEFGHIJKLMNOPQRSTUVWXYZ_abcdefghijklmnopqrstuvwxyz`. -/
def BASE64_ALPHABET : List Nat :=
  [45,
   48, 49, 50, 51, 52, 53, 54, 55, 56, 57,
   65, 66, 67, 68, 69, 70, 71, 72, 73, 74, 75, 76, 77, 78, 79, 80,
   81, 82, 83, 84, 85, 86, 87, 88, 89, 90,
   95,
   97, 98, 99, 100, 101, 102, 103, 104, 105, 106, 107, 108, 109, 110,
   111, 112, 113, 114, 115, 116, 117, 118, 119, 120, 121, 122]

/-- Index into the alphabet (`BASE64_ALPHABET[i]` in the source). -/
def alphaGet (i : Nat) : Nat := BASE64_ALPHABET.getD i 0

/-- `value.to_be_bytes()`: the eight big-endian bytes of a `u64`. -/
def to_be_bytes (v : Nat) : List Nat :=
  [v / 2 ^ 56 % 256, v / 2 ^ 48 % 256, v / 2 ^ 40 % 256, v / 2 ^ 32 % 256,
   v / 2 ^ 24 % 256, v / 2 ^ 16 % 256, v / 2 ^ 8 % 256, v % 256]

/-- The byte loop of `base64_encode_u64` (lines 16–42): emit four sixtet
indices per 3-byte group while at least three bytes remain, then handle the
remaining two (or one) bytes. -/
def encodeGroups : List Nat → List Nat
  | b1 :: b2 :: b3 :: rest =>
      ((b1 >>> 2) &&& 0x3F) ::
      (((b1 &&& 0x03) <<< 4) ||| ((b2 >>> 4) &&& 0x0F)) ::
      (((b2 &&& 0x0F) <<< 2) ||| ((b3 >>> 6) &&& 0x03)) ::
      (b3 &&& 0x3F) :: encodeGroups rest
  | [b1, b2] =>
      ((b1 >>> 2) &&& 0x3F) ::
      (((b1 &&& 0x03) <<< 4) ||| ((b2 >>> 4) &&& 0x0F)) ::
      [(b2 &&& 0x0F) <<< 2]
  | [b1] =>
      ((b1 >>> 2) &&& 0x3F) :: [(b1 &&& 0x03) <<< 4]
  | [] => []

/-- `base64_encode_u64` (lines 11–45): the 11-character encoded string,
as the list of its ASCII codes. -/
def base64_encode_u64 (v : Nat) : List Nat :=
  (encodeGroups (to_be_bytes v)).map alphaGet

/-- Byte-wise lexicographic strict order on strings (Rust `str` `<`). -/
def lexLt : List Nat → List Nat → Bool
  | _, [] => false
  | [], _ :: _ => true
  | a :: as, b :: bs => if a < b then true else if a = b then lexLt as bs else false

/-- Byte-wise lexicographic order, non-strict. -/
def lexLe (x y : List Nat) : Bool := lexLt x y || x == y

/-- The `n` base-64 digits of `x`, most significant first. -/
def digitsBE : Nat → Nat → List Nat
  | 0, _ => []
  | n + 1, x => x / 64 ^ n % 64 :: digitsBE n (x % 64 ^ n)

/-! ### The generator (`src/main.rs` lines 47–126)

State and clock are made explicit: `GenState` is the thread-local pair
`(LAST_TIMESTAMP_MS, SEQUENCE)`, and the successive return values of
`current_time_ms()` are consumed from a list `reads`.  A call that would
spin forever (the clock list is exhausted while the spin-wait or the
initial read needs another sample) yields `none`. -/

structure GenState where
  last_timestamp_ms : Nat
  sequence : Nat
deriving DecidableEq

/-- `current_time_ms` (lines 54–59): the wall-clock sample in milliseconds
relative to the Unix epoch.  A sample before the epoch makes
`duration_since(UNIX_EPOCH)` fail and the `expect` panic — modelled as
`none`; otherwise `as_millis() as u64` truncates to 64 bits. -/
def current_time_ms (sys_time_ms : Int) : Option Nat :=
  if sys_time_ms < 0 then none else some (sys_time_ms.toNat % 2 ^ 64)

/-- `generate_random_10bit` (lines 62–77): the lower 10 bits of a hash;
the hash itself is an oracle parameter. -/
def generate_random_10bit (hash : Nat) : Nat := hash &&& 0x3FF

/-- The packing expression of lines 121–123. -/
def pack (timestamp_ms sequence random : Nat) : Nat :=
  ((timestamp_ms &&& 0x3FFFFFFFFFF) <<< 22) ||| ((sequence &&& 0xFFF) <<< 10) |||
    (random &&& 0x3FF)

/-- `wait_next_millisecond` (lines 80–84): spin while the clock still reads
`current`, consuming one read per loop iteration; returns the reads left
after the loop exits, or `none` if the clock never changes. -/
def wait_next_millisecond (current : Nat) : List Nat → Option (List Nat)
  | [] => none
  | t :: ts => if t = current then wait_next_millisecond current ts else some ts

/-- One call of `generate_tiny64` (lines 87–126), at the level of the
packed 64-bit value: returns the value, the updated state, and the
unconsumed clock reads. -/
def generate_tiny64_value (st : GenState) (hash : Nat) :
    List Nat → Option (Nat × GenState × List Nat)
  | [] => none
  | now :: rest =>
    if now = st.last_timestamp_ms then
      -- Same millisecond: increment sequence
      let seq1 := (st.sequence + 1) % 4096
      if seq1 = 0 then
        -- Sequence overflow: wait for next millisecond, then re-sample
        match wait_next_millisecond now rest with
        | none => none
        | some rest2 =>
          match rest2 with
          | [] => none
          | now2 :: rest3 => some (pack now2 seq1 (generate_random_10bit hash), ⟨now2, seq1⟩, rest3)
      else
        some (pack now seq1 (generate_random_10bit hash), ⟨now, seq1⟩, rest)
    else
      -- New millisecond: reset sequence
      some (pack now 0 (generate_random_10bit hash), ⟨now, 0⟩, rest)

/-- `generate_tiny64` proper: the encoded 11-character identifier. -/
def generate_tiny64_id (st : GenState) (hash : Nat) (reads : List Nat) :
    Option (List Nat × GenState × List Nat) :=
  (generate_tiny64_value st hash reads).map fun p => (base64_encode_u64 p.1, p.2.1, p.2.2)

/-- Consecutive calls to the generator from one context: one call per
element of `hashes`, threading the state and the clock reads. -/
def generate_many (st : GenState) : List Nat → List Nat →
    Option (List Nat × GenState × List Nat)
  | [], reads => some ([], st, reads)
  | h :: hs, reads =>
    match generate_tiny64_value st h reads with
    | none => none
    | some (v, st2, reads2) =>
      match generate_many st2 hs reads2 with
      | none => none
      | some (vs, st3, reads3) => some (v :: vs, st3, reads3)

/-- Upper bound on the value the current state can have been packed into
(the random field is at most 1023). -/
def packMax (st : GenState) : Nat := pack st.last_timestamp_ms st.sequence 1023

/-- The documented unpacking shifts and masks: timestamp is bits 63–22,
sequence bits 21–10, random bits 9–0. -/
def unpack_timestamp (v : Nat) : Nat := (v >>> 22) &&& 0x3FFFFFFFFFF

def unpack_sequence (v : Nat) : Nat := (v >>> 10) &&& 0xFFF

def unpack_random (v : Nat) : Nat := v &&& 0x3FF

/-- What `main` (lines 165–176) does, as data: it either prints the help
text, or prints one generated identifier followed by a newline; the second
component is the process exit code, always 0. -/
inductive MainOutput where
  | helpText : MainOutput
  | idLine : String → MainOutput
deriving DecidableEq

/-- `main` (lines 165–176): `args` is the full argument vector including
the program name, so `args[1]` is the first command-line argument; `id`
is the identifier `generate_tiny64()` would produce. -/
def main_model (args : List String) (id : String) : MainOutput × Nat :=
  if 1 < args.length ∧ (args.getD 1 "" = "-h" ∨ args.getD 1 "" = "--help")
  then (MainOutput.helpText, 0)
  else (MainOutput.idLine (id ++ "\n"), 0)


/-! ### Bitwise operations as arithmetic -/

theorem shiftLeft_lor_eq_add (a b k : Nat) (hb : b < 2 ^ k) :
    (a <<< k) ||| b = a <<< k + b := by
  apply Nat.eq_of_testBit_eq
  intro j
  have hadd : (a <<< k + b).testBit j = if j < k then b.testBit j else a.testBit (j - k) := by
    rw [Nat.shiftLeft_eq, Nat.mul_comm]
    exact Nat.testBit_mul_pow_two_add a hb j
  rw [Nat.testBit_lor, hadd, Nat.testBit_shiftLeft]
  by_cases h : j < k
  · have hk : ¬ k ≤ j := by omega
    simp [h, hk]
  · have hk : k ≤ j := by omega
    have hb' : b < 2 ^ j := lt_of_lt_of_le hb (Nat.pow_le_pow_right (by omega) hk)
    simp [h, hk, Nat.testBit_eq_false_of_lt hb']

theorem and_three (x : Nat) : x &&& 3 = x % 4 := by
  have h := Nat.and_pow_two_sub_one_eq_mod x 2; norm_num at h; exact h

theorem and_fifteen (x : Nat) : x &&& 15 = x % 16 := by
  have h := Nat.and_pow_two_sub_one_eq_mod x 4; norm_num at h; exact h

theorem and_sixtythree (x : Nat) : x &&& 63 = x % 64 := by
  have h := Nat.and_pow_two_sub_one_eq_mod x 6; norm_num at h; exact h

/-- Sixtet 1 of a 3-byte group: `(b1 >> 2) & 0x3F`. -/
theorem sixtet1 (b : Nat) : (b >>> 2) &&& 0x3F = b / 4 % 64 := by
  rw [Nat.shiftRight_eq_div_pow, and_sixtythree]

/-- Sixtet 2 of a 3-byte group: `((b1 & 0x03) << 4) | ((b2 >> 4) & 0x0F)`. -/
theorem sixtet2 (b1 b2 : Nat) :
    ((b1 &&& 0x03) <<< 4) ||| ((b2 >>> 4) &&& 0x0F) = b1 % 4 * 16 + b2 / 16 % 16 := by
  rw [Nat.shiftRight_eq_div_pow, and_three, and_fifteen,
    shiftLeft_lor_eq_add _ _ 4 (by norm_num; omega), Nat.shiftLeft_eq]

/-- Sixtet 3 of a 3-byte group: `((b2 & 0x0F) << 2) | ((b3 >> 6) & 0x03)`. -/
theorem sixtet3 (b2 b3 : Nat) :
    ((b2 &&& 0x0F) <<< 2) ||| ((b3 >>> 6) &&& 0x03) = b2 % 16 * 4 + b3 / 64 % 4 := by
  rw [Nat.shiftRight_eq_div_pow, and_fifteen, and_three,
    shiftLeft_lor_eq_add _ _ 2 (by norm_num; omega), Nat.shiftLeft_eq]

/-- Sixtet 4 of a 3-byte group: `b3 & 0x3F`. -/
theorem sixtet4 (b : Nat) : b &&& 0x3F = b % 64 := by
  rw [and_sixtythree]

/-- Final sixtet of the 2-byte tail: `(b2 & 0x0F) << 2`. -/
theorem sixtet5 (b : Nat) : (b &&& 0x0F) <<< 2 = b % 16 * 4 := by
  rw [and_fifteen, Nat.shiftLeft_eq]

theorem digitsBE_succ (n x : Nat) :
    digitsBE (n + 1) x = x / 64 ^ n % 64 :: digitsBE n (x % 64 ^ n) := rfl

/-- The eleven base-64 digits, fully unfolded. -/
theorem digitsBE_eleven (x : Nat) :
    digitsBE 11 x =
      [x / 64 ^ 10 % 64,
       x % 64 ^ 10 / 64 ^ 9 % 64,
       x % 64 ^ 10 % 64 ^ 9 / 64 ^ 8 % 64,
       x % 64 ^ 10 % 64 ^ 9 % 64 ^ 8 / 64 ^ 7 % 64,
       x % 64 ^ 10 % 64 ^ 9 % 64 ^ 8 % 64 ^ 7 / 64 ^ 6 % 64,
       x % 64 ^ 10 % 64 ^ 9 % 64 ^ 8 % 64 ^ 7 % 64 ^ 6 / 64 ^ 5 % 64,
       x % 64 ^ 10 % 64 ^ 9 % 64 ^ 8 % 64 ^ 7 % 64 ^ 6 % 64 ^ 5 / 64 ^ 4 % 64,
       x % 64 ^ 10 % 64 ^ 9 % 64 ^ 8 % 64 ^ 7 % 64 ^ 6 % 64 ^ 5 % 64 ^ 4 / 64 ^ 3 % 64,
       x % 64 ^ 10 % 64 ^ 9 % 64 ^ 8 % 64 ^ 7 % 64 ^ 6 % 64 ^ 5 % 64 ^ 4 % 64 ^ 3 / 64 ^ 2 % 64,
       x % 64 ^ 10 % 64 ^ 9 % 64 ^ 8 % 64 ^ 7 % 64 ^ 6 % 64 ^ 5 % 64 ^ 4 % 64 ^ 3 % 64 ^ 2 / 64 ^ 1 % 64,
       x % 64 ^ 10 % 64 ^ 9 % 64 ^ 8 % 64 ^ 7 % 64 ^ 6 % 64 ^ 5 % 64 ^ 4 % 64 ^ 3 % 64 ^ 2 % 64 ^ 1 / 64 ^ 0 % 64] := rfl

/-- The encoder's sixtet indices are exactly the eleven base-64 digits of
`4 * v` (the 64-bit value left-padded to 66 bits). -/
theorem encodeGroups_eq_digits (v : Nat) :
    encodeGroups (to_be_bytes v) = digitsBE 11 (4 * v) := by
  rw [digitsBE_eleven]
  simp only [to_be_bytes, encodeGroups]
  simp only [sixtet1, sixtet2, sixtet3]
  simp only [sixtet4, sixtet5]
  simp only [List.cons.injEq, and_true]
  norm_num
  omega

/-! ### Properties of the digit expansion and the alphabet -/

theorem digitsBE_length (n : Nat) : ∀ x, (digitsBE n x).length = n := by
  induction n with
  | zero => intro x; rfl
  | succ n ih => intro x; rw [digitsBE_succ, List.length_cons, ih]

theorem digitsBE_mem_lt (n : Nat) : ∀ x d, d ∈ digitsBE n x → d < 64 := by
  induction n with
  | zero => intro x d hd; simp [digitsBE] at hd
  | succ n ih =>
      intro x d hd
      rw [digitsBE_succ, List.mem_cons] at hd
      rcases hd with h | h
      · subst h; exact Nat.mod_lt _ (by norm_num)
      · exact ih _ d h

theorem alphaGet_mono : ∀ i, i < 64 → ∀ j, j < 64 → i < j → alphaGet i < alphaGet j := by
  decide

theorem alphaGet_mem : ∀ i, i < 64 → alphaGet i ∈ BASE64_ALPHABET := by decide

theorem lexLt_cons (a b : Nat) (as bs : List Nat) :
    lexLt (a :: as) (b :: bs) =
      if a < b then true else if a = b then lexLt as bs else false := rfl

theorem lexLt_irrefl : ∀ x : List Nat, lexLt x x = false := by
  intro x
  induction x with
  | nil => rfl
  | cons a as ih => simp [lexLt_cons, ih]

theorem lexLt_ne {x y : List Nat} (h : lexLt x y = true) : x ≠ y := by
  intro e; subst e; rw [lexLt_irrefl] at h; exact Bool.false_ne_true h

theorem lexLe_refl (x : List Nat) : lexLe x x = true := by simp [lexLe]

/-- Fixed-width big-endian digit lists, mapped through a strictly monotone
symbol table, compare lexicographically like the numbers they encode. -/
theorem lexLt_digitsBE_map (f : Nat → Nat)
    (hf : ∀ i, i < 64 → ∀ j, j < 64 → i < j → f i < f j) :
    ∀ n a b, a < b → b < 64 ^ n →
      lexLt ((digitsBE n a).map f) ((digitsBE n b).map f) = true := by
  intro n
  induction n with
  | zero => intro a b hab hb; simp at hb; omega
  | succ n ih =>
      intro a b hab hb
      have hpow : (0:Nat) < 64 ^ n := Nat.pow_pos (by norm_num)
      have hb64 : b / 64 ^ n < 64 := by
        apply Nat.div_lt_of_lt_mul
        rw [← Nat.pow_succ]
        exact hb
      have ha64 : a / 64 ^ n < 64 :=
        lt_of_le_of_lt (Nat.div_le_div_right hab.le) hb64
      have hma : a / 64 ^ n % 64 = a / 64 ^ n := Nat.mod_eq_of_lt ha64
      have hmb : b / 64 ^ n % 64 = b / 64 ^ n := Nat.mod_eq_of_lt hb64
      rw [digitsBE_succ, digitsBE_succ, List.map_cons, List.map_cons, lexLt_cons, hma, hmb]
      by_cases hq : a / 64 ^ n < b / 64 ^ n
      · rw [if_pos (hf _ ha64 _ hb64 hq)]
      · have hq' : a / 64 ^ n = b / 64 ^ n :=
          Nat.le_antisymm (Nat.div_le_div_right hab.le) (Nat.not_lt.mp hq)
        have e1 : 64 ^ n * (b / 64 ^ n) + a % 64 ^ n = a := by
          rw [← hq']; exact Nat.div_add_mod a (64 ^ n)
        have e2 : 64 ^ n * (b / 64 ^ n) + b % 64 ^ n = b := Nat.div_add_mod b (64 ^ n)
        have ham : a % 64 ^ n < b % 64 ^ n := by omega
        rw [hq', if_neg (lt_irrefl _), if_pos rfl]
        exact ih _ _ ham (Nat.mod_lt _ hpow)

theorem base64_encode_eq_digits_map (v : Nat) :
    base64_encode_u64 v = (digitsBE 11 (4 * v)).map alphaGet := by
  rw [base64_encode_u64, encodeGroups_eq_digits]

/-- Order preservation of the encoder on the 64-bit domain. -/
theorem encode_lexLt {a b : Nat} (hab : a < b) (hb : b < 2 ^ 64) :
    lexLt (base64_encode_u64 a) (base64_encode_u64 b) = true := by
  rw [base64_encode_eq_digits_map, base64_encode_eq_digits_map]
  apply lexLt_digitsBE_map alphaGet alphaGet_mono 11 (4 * a) (4 * b) (by omega)
  have h' := hb
  norm_num at h' ⊢
  omega

theorem base64_encode_length (v : Nat) : (base64_encode_u64 v).length = 11 := by
  rw [base64_encode_eq_digits_map, List.length_map, digitsBE_length]

theorem base64_encode_mem (v : Nat) : ∀ c ∈ base64_encode_u64 v, c ∈ BASE64_ALPHABET := by
  rw [base64_encode_eq_digits_map]
  intro c hc
  rw [List.mem_map] at hc
  obtain ⟨d, hd, rfl⟩ := hc
  exact alphaGet_mem d (digitsBE_mem_lt _ _ d hd)

/-- C1: the encoder preserves unsigned numeric order as lexical string
order: for every pair of u64 values `a < b`, `encode(a)` is strictly less
than `encode(b)` under byte-wise lexical comparison of the 11-character
strings; in particular `encode(0)` is the minimal string `"-----------"`
and is less than `encode(u64::MAX)`. -/
theorem C1_encoder_order_preservation :
    (∀ a b : Nat, a < 2 ^ 64 → b < 2 ^ 64 → a < b →
        lexLt (base64_encode_u64 a) (base64_encode_u64 b) = true) ∧
    base64_encode_u64 0 = List.replicate 11 45 ∧
    (∀ v : Nat, v < 2 ^ 64 → lexLe (base64_encode_u64 0) (base64_encode_u64 v) = true) ∧
    lexLt (base64_encode_u64 0) (base64_encode_u64 (2 ^ 64 - 1)) = true := by
  refine ⟨fun a b _ hb hab => encode_lexLt hab hb, by decide, ?_, ?_⟩
  · intro v hv
    rcases Nat.eq_zero_or_pos v with h | h
    · subst h; exact lexLe_refl _
    · rw [lexLe, encode_lexLt h hv, Bool.true_or]
  · exact encode_lexLt (by norm_num) (by norm_num)

theorem C1_encoder_order_preservation_witness :
    lexLt (base64_encode_u64 3) (base64_encode_u64 7) = true :=
  C1_encoder_order_preservation.1 3 7 (by norm_num) (by norm_num) (by norm_num)

/-- C5: for every u64 input `v`, `encode(v)` is a string of length exactly
11 in which every character is a member of the fixed 64-symbol alphabet,
with no padding character. -/
theorem C5_encode_length_and_alphabet :
    ∀ v : Nat, v < 2 ^ 64 →
      (base64_encode_u64 v).length = 11 ∧
      ∀ c ∈ base64_encode_u64 v, c ∈ BASE64_ALPHABET :=
  fun v _ => ⟨base64_encode_length v, base64_encode_mem v⟩

theorem C5_encode_length_and_alphabet_witness :
    (base64_encode_u64 0).length = 11 :=
  (C5_encode_length_and_alphabet 0 (by norm_num)).1

/-- C8: the encoder processes the value's 8 big-endian bytes in 3-byte
chunks while at least 3 bytes remain (4 alphabet characters per chunk, 8
characters from the two full chunks), and when exactly 2 bytes remain it
emits exactly 3 characters: the top 6 bits of byte 7, then the bottom
2 bits of byte 7 combined with the top 4 bits of byte 8, then the bottom
4 bits of byte 8 zero-extended to 6 bits — 11 characters in total. -/
theorem C8_encoder_chunking :
    (∀ b1 b2 b3 rest, encodeGroups (b1 :: b2 :: b3 :: rest) =
        [(b1 >>> 2) &&& 0x3F,
         ((b1 &&& 0x03) <<< 4) ||| ((b2 >>> 4) &&& 0x0F),
         ((b2 &&& 0x0F) <<< 2) ||| ((b3 >>> 6) &&& 0x03),
         b3 &&& 0x3F] ++ encodeGroups rest) ∧
    (∀ b1 b2 : Nat, b1 < 256 → b2 < 256 → encodeGroups [b1, b2] =
        [b1 / 4, b1 % 4 * 16 + b2 / 16, b2 % 16 * 4]) ∧
    (∀ v : Nat, (to_be_bytes v).length = 8 ∧
      base64_encode_u64 v =
        (encodeGroups ((to_be_bytes v).take 3) ++
         encodeGroups (((to_be_bytes v).drop 3).take 3) ++
         encodeGroups ((to_be_bytes v).drop 6)).map alphaGet ∧
      (encodeGroups ((to_be_bytes v).take 3)).length = 4 ∧
      (encodeGroups (((to_be_bytes v).drop 3).take 3)).length = 4 ∧
      (encodeGroups ((to_be_bytes v).drop 6)).length = 3 ∧
      (base64_encode_u64 v).length = 11) := by
  refine ⟨fun b1 b2 b3 rest => by simp [encodeGroups], ?_, ?_⟩
  · intro b1 b2 h1 h2
    simp only [encodeGroups, sixtet1, sixtet2, sixtet5, List.cons.injEq, and_true]
    omega
  · intro v
    refine ⟨rfl, ?_, rfl, rfl, rfl, base64_encode_length v⟩
    simp [base64_encode_u64, to_be_bytes, encodeGroups]

theorem C8_encoder_chunking_witness :
    encodeGroups [171, 205] = [42, 60, 52] := by
  have h := C8_encoder_chunking.2.1 171 205 (by norm_num) (by norm_num)
  norm_num at h
  exact h

/-! ### Arithmetic form of `pack` -/

theorem lor_eq_add (a b k : Nat) (ha : a % 2 ^ k = 0) (hb : b < 2 ^ k) :
    a ||| b = a + b := by
  obtain ⟨c, rfl⟩ : ∃ c, a = c * 2 ^ k :=
    ⟨a / 2 ^ k, by rw [Nat.div_mul_cancel (Nat.dvd_of_mod_eq_zero ha)]⟩
  rw [← Nat.shiftLeft_eq, shiftLeft_lor_eq_add _ _ _ hb, Nat.shiftLeft_eq]

theorem and_mask42 (x : Nat) : x &&& 0x3FFFFFFFFFF = x % 4398046511104 := by
  have h := Nat.and_pow_two_sub_one_eq_mod x 42; norm_num at h; exact h

theorem and_mask12 (x : Nat) : x &&& 0xFFF = x % 4096 := by
  have h := Nat.and_pow_two_sub_one_eq_mod x 12; norm_num at h; exact h

theorem and_mask10 (x : Nat) : x &&& 0x3FF = x % 1024 := by
  have h := Nat.and_pow_two_sub_one_eq_mod x 10; norm_num at h; exact h

theorem pack_eq (t s r : Nat) :
    pack t s r = t % 4398046511104 * 4194304 + s % 4096 * 1024 + r % 1024 := by
  rw [pack, and_mask42, and_mask12, and_mask10, Nat.shiftLeft_eq, Nat.shiftLeft_eq]
  norm_num
  rw [lor_eq_add (t % 4398046511104 * 4194304) (s % 4096 * 1024) 22
      (by omega) (by omega),
    lor_eq_add _ (r % 1024) 10 (by omega) (by omega)]

theorem pack_lt (t s r : Nat) : pack t s r < 2 ^ 64 := by
  rw [pack_eq]
  have h1 : t % 4398046511104 < 4398046511104 := Nat.mod_lt _ (by norm_num)
  have h2 : s % 4096 < 4096 := Nat.mod_lt _ (by norm_num)
  have h3 : r % 1024 < 1024 := Nat.mod_lt _ (by norm_num)
  norm_num
  omega

theorem generate_random_10bit_eq (h : Nat) : generate_random_10bit h = h % 1024 :=
  and_mask10 h

/-- C6: packing is `(timestamp << 22) | (sequence << 10) | random`, with
timestamp in bits 63–22, sequence in bits 21–10, random in bits 9–0; for
all `t < 2^42`, `s < 4096`, `r < 1024`, packing `(t, s, r)` and then
unpacking via the documented shifts and masks recovers exactly
`(t, s, r)`. -/
theorem C6_pack_unpack_roundtrip :
    ∀ t s r : Nat, t < 2 ^ 42 → s < 4096 → r < 1024 →
      pack t s r = (t <<< 22) ||| (s <<< 10) ||| r ∧
      unpack_timestamp (pack t s r) = t ∧
      unpack_sequence (pack t s r) = s ∧
      unpack_random (pack t s r) = r := by
  intro t s r ht hs hr
  have hp : pack t s r = t * 4194304 + s * 1024 + r := by
    rw [pack_eq]; omega
  refine ⟨?_, ?_, ?_, ?_⟩
  · rw [hp, Nat.shiftLeft_eq, Nat.shiftLeft_eq]
    norm_num
    rw [lor_eq_add (t * 4194304) (s * 1024) 22 (by omega) (by omega),
      lor_eq_add _ r 10 (by omega) (by omega)]
  · rw [unpack_timestamp, hp, Nat.shiftRight_eq_div_pow, and_mask42]
    norm_num
    omega
  · rw [unpack_sequence, hp, Nat.shiftRight_eq_div_pow, and_mask12]
    norm_num
    omega
  · rw [unpack_random, hp, and_mask10]
    omega

theorem C6_pack_unpack_roundtrip_witness :
    unpack_timestamp (pack 7 9 11) = 7 ∧ unpack_sequence (pack 7 9 11) = 9 ∧
      unpack_random (pack 7 9 11) = 11 :=
  (C6_pack_unpack_roundtrip 7 9 11 (by norm_num) (by norm_num) (by norm_num)).2

/-! ### Monotonicity of the generated values -/

theorem wait_spec (current : Nat) :
    ∀ reads, List.Pairwise (· ≤ ·) reads → (∀ r ∈ reads, current ≤ r) →
      (∀ r ∈ reads, r < 2 ^ 42) →
      ∀ rest2, wait_next_millisecond current reads = some rest2 →
        List.Pairwise (· ≤ ·) rest2 ∧ (∀ r ∈ rest2, current < r) ∧
        (∀ r ∈ rest2, r < 2 ^ 42) := by
  intro reads
  induction reads with
  | nil => intro _ _ _ rest2 hw; simp [wait_next_millisecond] at hw
  | cons t ts ih =>
      intro hp hge hb rest2 hw
      rw [wait_next_millisecond] at hw
      by_cases ht : t = current
      · rw [if_pos ht] at hw
        exact ih hp.of_cons (fun r hr => hge r (List.mem_cons_of_mem _ hr))
          (fun r hr => hb r (List.mem_cons_of_mem _ hr)) rest2 hw
      · rw [if_neg ht] at hw
        cases hw
        have hcur : current < t :=
          lt_of_le_of_ne (hge t (List.mem_cons_self _ _)) (Ne.symm ht)
        refine ⟨hp.of_cons, fun r hr => ?_, fun r hr => hb r (List.mem_cons_of_mem _ hr)⟩
        exact lt_of_lt_of_le hcur ((List.pairwise_cons.mp hp).1 r hr)

/-- One generator call, under a monotone in-range clock: the produced value
strictly exceeds anything the previous state can have produced, and the
invariants are preserved. -/
theorem step_spec (st : GenState) (h : Nat) (reads : List Nat)
    (hseq : st.sequence < 4096)
    (hp : List.Pairwise (· ≤ ·) reads)
    (hlast : ∀ r ∈ reads, st.last_timestamp_ms ≤ r)
    (hb : ∀ r ∈ reads, r < 2 ^ 42)
    (hlt : st.last_timestamp_ms < 2 ^ 42) :
    ∀ v st2 reads2, generate_tiny64_value st h reads = some (v, st2, reads2) →
      packMax st < v ∧ v ≤ packMax st2 ∧
      st2.sequence < 4096 ∧ st2.last_timestamp_ms < 2 ^ 42 ∧
      List.Pairwise (· ≤ ·) reads2 ∧
      (∀ r ∈ reads2, st2.last_timestamp_ms ≤ r) ∧
      (∀ r ∈ reads2, r < 2 ^ 42) := by
  intro v st2 reads2 hgen
  cases reads with
  | nil => simp [generate_tiny64_value] at hgen
  | cons now rest =>
      have hnow_lt : now < 2 ^ 42 := hb now (List.mem_cons_self _ _)
      have hrest_p : List.Pairwise (· ≤ ·) rest := hp.of_cons
      have hrest_ge : ∀ r ∈ rest, now ≤ r := (List.pairwise_cons.mp hp).1
      have hrest_b : ∀ r ∈ rest, r < 2 ^ 42 := fun r hr => hb r (List.mem_cons_of_mem _ hr)
      rw [generate_tiny64_value] at hgen
      by_cases hnow : now = st.last_timestamp_ms
      · rw [if_pos hnow] at hgen
        simp only [] at hgen
        by_cases hwrap : (st.sequence + 1) % 4096 = 0
        · rw [if_pos hwrap] at hgen
          cases hw : wait_next_millisecond now rest with
          | none => rw [hw] at hgen; exact absurd hgen (by simp)
          | some rest2' =>
              rw [hw] at hgen
              obtain ⟨hpw, hgt, hbw⟩ := wait_spec now rest hrest_p hrest_ge hrest_b rest2' hw
              cases rest2' with
              | nil => exact absurd hgen (by simp)
              | cons now2 rest3 =>
                  simp only [Option.some.injEq, Prod.mk.injEq] at hgen
                  obtain ⟨hv, hst2, hr2⟩ := hgen
                  subst hv hst2 hr2
                  have hnow2 : now < now2 := hgt now2 (List.mem_cons_self _ _)
                  have hnow2_lt : now2 < 2 ^ 42 := hbw now2 (List.mem_cons_self _ _)
                  refine ⟨?_, ?_, by dsimp only; omega, by dsimp only; exact hnow2_lt,
                    hpw.of_cons, by dsimp only; exact (List.pairwise_cons.mp hpw).1,
                    fun r hr => hbw r (List.mem_cons_of_mem _ hr)⟩
                  · simp only [packMax, ← hnow, hwrap, generate_random_10bit_eq, pack_eq]
                    omega
                  · simp only [packMax, hwrap, generate_random_10bit_eq, pack_eq]
                    omega
        · rw [if_neg hwrap] at hgen
          simp only [Option.some.injEq, Prod.mk.injEq] at hgen
          obtain ⟨hv, hst2, hr2⟩ := hgen
          subst hv hst2 hr2
          have hseq1 : (st.sequence + 1) % 4096 = st.sequence + 1 := by omega
          refine ⟨?_, ?_, by dsimp only; omega, by dsimp only; exact hnow_lt, hrest_p,
            by dsimp only; exact hrest_ge, hrest_b⟩
          · simp only [packMax, ← hnow, generate_random_10bit_eq, pack_eq, hseq1]
            omega
          · simp only [packMax, generate_random_10bit_eq, pack_eq, hseq1]
            omega
      · rw [if_neg hnow] at hgen
        simp only [Option.some.injEq, Prod.mk.injEq] at hgen
        obtain ⟨hv, hst2, hr2⟩ := hgen
        subst hv hst2 hr2
        have hlast_now : st.last_timestamp_ms < now :=
          lt_of_le_of_ne (hlast now (List.mem_cons_self _ _)) (fun e => hnow e.symm)
        refine ⟨?_, ?_, by dsimp only; omega, by dsimp only; exact hnow_lt, hrest_p,
          by dsimp only; exact hrest_ge, hrest_b⟩
        · simp only [packMax, generate_random_10bit_eq, pack_eq]
          omega
        · simp only [packMax, generate_random_10bit_eq, pack_eq]
          omega

/-- Consecutive generated values strictly increase, under a monotone
in-range clock. -/
theorem generate_many_spec (hashes : List Nat) :
    ∀ st reads, st.sequence < 4096 → st.last_timestamp_ms < 2 ^ 42 →
      List.Pairwise (· ≤ ·) reads → (∀ r ∈ reads, st.last_timestamp_ms ≤ r) →
      (∀ r ∈ reads, r < 2 ^ 42) →
      ∀ vs st' reads', generate_many st hashes reads = some (vs, st', reads') →
        List.Chain' (· < ·) (packMax st :: vs) ∧ (∀ v ∈ vs, v < 2 ^ 64) := by
  induction hashes with
  | nil =>
      intro st reads _ _ _ _ _ vs st' reads' hg
      simp only [generate_many, Option.some.injEq, Prod.mk.injEq] at hg
      obtain ⟨hvs, _, _⟩ := hg
      subst hvs
      exact ⟨List.chain'_singleton _, by simp⟩
  | cons h hs ih =>
      intro st reads hseq hlt hp hlast hb vs st' reads' hg
      rw [generate_many] at hg
      cases hstep : generate_tiny64_value st h reads with
      | none => rw [hstep] at hg; exact absurd hg (by simp)
      | some p =>
          obtain ⟨v, st2, reads2⟩ := p
          rw [hstep] at hg
          dsimp only at hg
          obtain ⟨h1, h2, h3, h4, h5, h6, h7⟩ :=
            step_spec st h reads hseq hp hlast hb hlt v st2 reads2 hstep
          cases hrec : generate_many st2 hs reads2 with
          | none => rw [hrec] at hg; exact absurd hg (by simp)
          | some q =>
              obtain ⟨vs2, st3, reads3⟩ := q
              rw [hrec] at hg
              simp only [Option.some.injEq, Prod.mk.injEq] at hg
              obtain ⟨hvs, _, _⟩ := hg
              subst hvs
              obtain ⟨hchain, hbound⟩ := ih st2 reads2 h3 h4 h5 h6 h7 vs2 st3 reads3 hrec
              constructor
              · rw [List.chain'_cons]
                refine ⟨h1, ?_⟩
                cases vs2 with
                | nil => simp
                | cons w ws =>
                    rw [List.chain'_cons] at hchain ⊢
                    exact ⟨lt_of_le_of_lt h2 hchain.1, hchain.2⟩
              · intro x hx
                rcases List.mem_cons.mp hx with rfl | hx'
                · exact lt_of_le_of_lt h2 (pack_lt _ _ _)
                · exact hbound x hx'

/-- Strictly increasing values give lexically non-decreasing encoded IDs. -/
theorem chain_lexLe_of_chain_lt : ∀ vs : List Nat, List.Chain' (· < ·) vs →
    (∀ v ∈ vs, v < 2 ^ 64) →
    List.Chain' (fun x y => lexLe x y = true) (vs.map base64_encode_u64) := by
  intro vs
  induction vs with
  | nil => simp
  | cons a l ih =>
      intro hc hb
      cases l with
      | nil => simp
      | cons b m =>
          rw [List.map_cons, List.map_cons, List.chain'_cons]
          rw [List.chain'_cons] at hc
          refine ⟨?_, ?_⟩
          · rw [lexLe, encode_lexLt hc.1 (hb b (by simp)), Bool.true_or]
          · have hm := ih hc.2 (fun x hx => hb x (List.mem_cons_of_mem _ hx))
            rw [List.map_cons] at hm
            exact hm

/-- C2 (amended): for a single generator context started at `(0, 0)`, if
every wall-clock read is greater than or equal to the previous read (no
clock rollback) and every read is below `2^42` (the width of the timestamp
field), then every sequence of consecutive calls yields IDs that are
non-decreasing in lexical order. -/
theorem C2_monotone_ids (hashes reads : List Nat)
    (hp : List.Pairwise (· ≤ ·) reads) (hb : ∀ r ∈ reads, r < 2 ^ 42) :
    ∀ vs st' reads', generate_many ⟨0, 0⟩ hashes reads = some (vs, st', reads') →
      List.Chain' (fun x y => lexLe x y = true) (vs.map base64_encode_u64) := by
  intro vs st' reads' hg
  obtain ⟨hchain, hbound⟩ :=
    generate_many_spec hashes ⟨0, 0⟩ reads (by decide) (by decide) hp
      (fun r _ => Nat.zero_le r) hb vs st' reads' hg
  exact chain_lexLe_of_chain_lt vs hchain.tail hbound

theorem C2_monotone_ids_witness :
    List.Chain' (fun x y => lexLe x y = true)
      ([pack 1 0 0, pack 2 0 0].map base64_encode_u64) :=
  C2_monotone_ids [0, 0] [1, 2] (by decide) (by decide)
    [pack 1 0 0, pack 2 0 0] ⟨2, 0⟩ [] (by decide)

/-- C2 counterexample: with clock reads `2^42 - 1` and then `2^42` — which
are non-decreasing, so no clock rollback occurs — the two consecutive IDs
strictly decrease lexically, because the second timestamp is truncated by
the 42-bit mask. -/
theorem C2_rollover_counterexample :
    List.Pairwise (· ≤ ·) [4398046511103, 4398046511104] ∧
    (generate_many ⟨0, 0⟩ [0, 0] [4398046511103, 4398046511104]).map
        (fun p => p.1.map base64_encode_u64) =
      some [base64_encode_u64 (pack 4398046511103 0 0),
            base64_encode_u64 (pack 4398046511104 0 0)] ∧
    lexLt (base64_encode_u64 (pack 4398046511104 0 0))
      (base64_encode_u64 (pack 4398046511103 0 0)) = true :=
  ⟨by decide, by decide, by decide⟩

/-- C4: each generator step follows the specified state machine: if `now`
equals `last_timestamp_ms` the sequence becomes `(sequence + 1) % 4096`;
when that wraps to 0 the generator spin-waits until the clock advances and
re-samples `now` (the sequence staying 0), blocking forever if it never
does; otherwise — including `now < last_timestamp_ms` after a rollback —
the sequence is reset to 0; the state is updated to `(now, sequence)` and
exactly those values are packed into the returned ID. -/
theorem C4_state_machine (st : GenState) (h now : Nat) (rest : List Nat) :
    (now = st.last_timestamp_ms → (st.sequence + 1) % 4096 ≠ 0 →
      generate_tiny64_value st h (now :: rest) =
        some (pack now ((st.sequence + 1) % 4096) (generate_random_10bit h),
          ⟨now, (st.sequence + 1) % 4096⟩, rest)) ∧
    (now = st.last_timestamp_ms → (st.sequence + 1) % 4096 = 0 →
      ∀ now2 rest3, wait_next_millisecond now rest = some (now2 :: rest3) →
        generate_tiny64_value st h (now :: rest) =
          some (pack now2 0 (generate_random_10bit h), ⟨now2, 0⟩, rest3)) ∧
    (now = st.last_timestamp_ms → (st.sequence + 1) % 4096 = 0 →
      wait_next_millisecond now rest = none →
      generate_tiny64_value st h (now :: rest) = none) ∧
    (now ≠ st.last_timestamp_ms →
      generate_tiny64_value st h (now :: rest) =
        some (pack now 0 (generate_random_10bit h), ⟨now, 0⟩, rest)) := by
  refine ⟨?_, ?_, ?_, ?_⟩
  · intro h1 h2
    rw [generate_tiny64_value, if_pos h1]
    dsimp only
    rw [if_neg h2]
  · intro h1 h2 now2 rest3 hw
    rw [generate_tiny64_value, if_pos h1]
    dsimp only
    rw [h2, if_pos rfl, hw]
  · intro h1 h2 hw
    rw [generate_tiny64_value, if_pos h1]
    dsimp only
    rw [h2, if_pos rfl, hw]
  · intro h1
    rw [generate_tiny64_value, if_neg h1]

theorem C4_state_machine_witness :
    generate_tiny64_value ⟨5, 3⟩ 0 [5] =
      some (pack 5 ((3 + 1) % 4096) (generate_random_10bit 0), ⟨5, (3 + 1) % 4096⟩, []) :=
  (C4_state_machine ⟨5, 3⟩ 0 5 []).1 rfl (by decide)

/-! ### Behaviour within one fixed millisecond -/

theorem generate_random_10bit_zero : generate_random_10bit 0 = 0 := rfl

theorem wait_replicate (current : Nat) :
    ∀ k, wait_next_millisecond current (List.replicate k current) = none := by
  intro k
  induction k with
  | zero => rfl
  | succ k ih => rw [List.replicate_succ, wait_next_millisecond, if_pos rfl, ih]

theorem wait_replicate_append (current t : Nat) (ht : t ≠ current) (ls : List Nat) :
    ∀ k, wait_next_millisecond current (List.replicate k current ++ t :: ls) = some ls := by
  intro k
  induction k with
  | zero => rw [List.replicate_zero, List.nil_append, wait_next_millisecond, if_neg ht]
  | succ k ih => rw [List.replicate_succ, List.cons_append, wait_next_millisecond, if_pos rfl, ih]

theorem generate_many_cons (st : GenState) (h : Nat) (hs reads : List Nat)
    (v : Nat) (st2 : GenState) (reads2 : List Nat)
    (hstep : generate_tiny64_value st h reads = some (v, st2, reads2))
    (vs : List Nat) (st3 : GenState) (reads3 : List Nat)
    (hrec : generate_many st2 hs reads2 = some (vs, st3, reads3)) :
    generate_many st (h :: hs) reads = some (v :: vs, st3, reads3) := by
  rw [generate_many, hstep]
  dsimp only
  rw [hrec]

/-- A run of `k` calls whose clock reads all equal the state's
`last_timestamp_ms`: every call succeeds, the sequence just counts up. -/
theorem sameMs_run : ∀ k s0 T : Nat, s0 + k < 4096 →
    ∃ vs, generate_many ⟨T, s0⟩ (List.replicate k 0) (List.replicate k T) =
        some (vs, ⟨T, s0 + k⟩, []) ∧ vs.length = k := by
  intro k
  induction k with
  | zero => intro s0 T _; exact ⟨[], rfl, rfl⟩
  | succ k ih =>
      intro s0 T hk
      have hstep : generate_tiny64_value ⟨T, s0⟩ 0 (T :: List.replicate k T) =
          some (pack T (s0 + 1) 0, ⟨T, s0 + 1⟩, List.replicate k T) := by
        rw [generate_tiny64_value, if_pos rfl]
        dsimp only
        rw [show (s0 + 1) % 4096 = s0 + 1 from by omega, if_neg (by omega),
          generate_random_10bit_zero]
      obtain ⟨vs, hvs, hlen⟩ := ih (s0 + 1) T (by omega)
      refine ⟨pack T (s0 + 1) 0 :: vs, ?_, by rw [List.length_cons, hlen]⟩
      rw [List.replicate_succ, List.replicate_succ, generate_many, hstep]
      dsimp only
      rw [hvs]
      dsimp only
      rw [show s0 + 1 + k = s0 + (k + 1) from by omega]

/-- A run of `k + 1` calls whose clock reads strictly increase starting at
`c`, with `c` different from the state's `last_timestamp_ms`: every call
takes the reset branch. -/
theorem newMs_run : ∀ k T s0 c : Nat, T ≠ c →
    ∃ vs, generate_many ⟨T, s0⟩ (List.replicate (k + 1) 0)
        ((List.range (k + 1)).map fun i => c + i) = some (vs, ⟨c + k, 0⟩, []) ∧
      vs.length = k + 1 := by
  intro k
  induction k with
  | zero =>
      intro T s0 c hT
      refine ⟨[pack c 0 0], ?_, rfl⟩
      rw [show ((List.range 1).map fun i => c + i) = [c] from rfl]
      rw [List.replicate_succ, List.replicate_zero, generate_many,
        generate_tiny64_value, if_neg (by dsimp only; exact fun e => hT e.symm),
        generate_random_10bit_zero]
      rfl
  | succ k ih =>
      intro T s0 c hT
      have hsplit : ((List.range (k + 2)).map fun i => c + i) =
          c :: ((List.range (k + 1)).map fun i => c + 1 + i) := by
        rw [List.range_succ_eq_map, List.map_cons, List.map_map]
        refine congrArg₂ _ (by omega) (List.map_congr_left fun a _ => ?_)
        show c + (a + 1) = c + 1 + a
        omega
      obtain ⟨vs, hvs, hlen⟩ := ih c 0 (c + 1) (by omega)
      refine ⟨pack c 0 0 :: vs, ?_, by rw [List.length_cons, hlen]⟩
      rw [hsplit, List.replicate_succ, generate_many,
        generate_tiny64_value, if_neg (by dsimp only; exact fun e => hT e.symm),
        generate_random_10bit_zero]
      dsimp only
      rw [hvs]
      dsimp only
      rw [show c + 1 + k = c + (k + 1) from by omega]

/-- C3 counterexample: a fresh context whose clock reads stay at the fixed
millisecond 1 serves 4096 consecutive calls without ever entering the
overflow path — the 4096th call succeeds normally with sequence 4095
(exactly 4096 reads are consumed, one per call, and none are left). -/
theorem C3_fixed_ms_counterexample :
    (generate_many ⟨0, 0⟩ (List.replicate 4096 0) (List.replicate 4096 1)).map
        (fun p => (p.2.1, p.2.2)) = some (⟨1, 4095⟩, []) := by
  have hstep : generate_tiny64_value ⟨0, 0⟩ 0 (1 :: List.replicate 4095 1) =
      some (pack 1 0 0, ⟨1, 0⟩, List.replicate 4095 1) := by
    rw [generate_tiny64_value, if_neg (by dsimp only; omega), generate_random_10bit_zero]
  obtain ⟨vs, hvs, _⟩ := sameMs_run 4095 0 1 (by omega)
  have hall := generate_many_cons _ _ _ _ _ _ _ hstep _ _ _ hvs
  rw [show List.replicate 4096 0 = 0 :: List.replicate 4095 0 from rfl,
    show List.replicate 4096 1 = 1 :: List.replicate 4095 1 from rfl,
    hall]
  rfl

/-- C3 (amended): within one fixed millisecond `T ≠ 0`, a fresh context
serves 4096 IDs (sequence 0–4095) without overflow; it is the next — the
4097th — call that triggers the overflow path: with the clock stuck at `T`
it blocks (here: exhausts any number of same-valued reads and returns
`none`), and once the clock advances it returns timestamp `T + 1` with
sequence 0 rather than wrapping to a colliding value.  When the fixed
millisecond is 0 — the initial `last_timestamp_ms` — the first call
already increments the sequence, only 4095 calls fit, and it is the 4096th
call that triggers the overflow path. -/
theorem C3_overflow_behaviour (T k : Nat) (hT : T ≠ 0) :
    (generate_many ⟨0, 0⟩ (List.replicate 4096 0) (List.replicate 4096 T)).map
        (fun p => (p.2.1, p.2.2)) = some (⟨T, 4095⟩, []) ∧
    generate_tiny64_value ⟨T, 4095⟩ 0 (List.replicate k T) = none ∧
    generate_tiny64_value ⟨T, 4095⟩ 0 (T :: (List.replicate k T ++ [T + 1, T + 1])) =
      some (pack (T + 1) 0 0, ⟨T + 1, 0⟩, []) ∧
    (generate_many ⟨0, 0⟩ (List.replicate 4095 0) (List.replicate 4095 0)).map
        (fun p => (p.2.1, p.2.2)) = some (⟨0, 4095⟩, []) ∧
    generate_tiny64_value ⟨0, 4095⟩ 0 (List.replicate k 0) = none := by
  refine ⟨?_, ?_, ?_, ?_, ?_⟩
  · have hstep : generate_tiny64_value ⟨0, 0⟩ 0 (T :: List.replicate 4095 T) =
        some (pack T 0 0, ⟨T, 0⟩, List.replicate 4095 T) := by
      rw [generate_tiny64_value, if_neg (by dsimp only; exact hT), generate_random_10bit_zero]
    obtain ⟨vs, hvs, _⟩ := sameMs_run 4095 0 T (by omega)
    have hall := generate_many_cons _ _ _ _ _ _ _ hstep _ _ _ hvs
    rw [show List.replicate 4096 0 = 0 :: List.replicate 4095 0 from rfl,
      show List.replicate 4096 T = T :: List.replicate 4095 T from rfl,
      hall]
    rfl
  · cases k with
    | zero => rfl
    | succ k =>
        rw [List.replicate_succ, generate_tiny64_value, if_pos rfl]
        dsimp only
        rw [show (4095 + 1) % 4096 = 0 from by omega, if_pos rfl, wait_replicate]
  · rw [generate_tiny64_value, if_pos rfl]
    dsimp only
    rw [show (4095 + 1) % 4096 = 0 from by omega, if_pos rfl,
      wait_replicate_append T (T + 1) (by omega) [T + 1] k, generate_random_10bit_zero]
  · obtain ⟨vs, hvs, _⟩ := sameMs_run 4095 0 0 (by omega)
    rw [hvs]
    rfl
  · cases k with
    | zero => rfl
    | succ k =>
        rw [List.replicate_succ, generate_tiny64_value, if_pos rfl]
        dsimp only
        rw [show (4095 + 1) % 4096 = 0 from by omega, if_pos rfl, wait_replicate]

theorem C3_overflow_behaviour_witness :
    generate_tiny64_value ⟨1, 4095⟩ 0 (1 :: (List.replicate 1 1 ++ [2, 2])) =
      some (pack 2 0 0, ⟨2, 0⟩, []) :=
  (C3_overflow_behaviour 1 1 (by decide)).2.2.1

/-! ### Uniqueness -/

theorem pairwise_ne_encode : ∀ vs : List Nat, List.Pairwise (· < ·) vs →
    (∀ v ∈ vs, v < 2 ^ 64) → List.Pairwise (· ≠ ·) (vs.map base64_encode_u64) := by
  intro vs
  induction vs with
  | nil => intro _ _; simp
  | cons a l ih =>
      intro hp hb
      rw [List.map_cons, List.pairwise_cons]
      rw [List.pairwise_cons] at hp
      refine ⟨?_, ih hp.2 (fun v hv => hb v (List.mem_cons_of_mem _ hv))⟩
      intro c hc
      rw [List.mem_map] at hc
      obtain ⟨w, hw, rfl⟩ := hc
      exact lexLt_ne (encode_lexLt (hp.1 w hw) (hb w (List.mem_cons_of_mem _ hw)))

/-- C7 (amended): for a single context started at `(0, 0)`, with
non-decreasing clock reads that stay below `2^42`, any number of generated
IDs — in particular 10,000 — are pairwise-distinct strings: within a
millisecond the sequence field alone guarantees distinctness regardless of
the random field (the random oracle `hashes` is unconstrained), and across
milliseconds distinctness follows from the timestamp field advancing. -/
theorem C7_unique_ids (hashes reads : List Nat)
    (hp : List.Pairwise (· ≤ ·) reads) (hb : ∀ r ∈ reads, r < 2 ^ 42) :
    ∀ vs st' reads', generate_many ⟨0, 0⟩ hashes reads = some (vs, st', reads') →
      List.Pairwise (· ≠ ·) (vs.map base64_encode_u64) := by
  intro vs st' reads' hg
  obtain ⟨hchain, hbound⟩ :=
    generate_many_spec hashes ⟨0, 0⟩ reads (by decide) (by decide) hp
      (fun r _ => Nat.zero_le r) hb vs st' reads' hg
  exact pairwise_ne_encode vs (List.chain'_iff_pairwise.mp hchain).of_cons hbound

theorem C7_unique_ids_witness :
    List.Pairwise (· ≠ ·) ([pack 5 0 0].map base64_encode_u64) :=
  C7_unique_ids [0] [5] (by decide) (by decide) [pack 5 0 0] ⟨5, 0⟩ [] (by decide)

/-- C7 counterexample: 10,000 IDs generated from one context under
non-decreasing clock reads are NOT always pairwise distinct: reads
`1, 1, 2^42 + 1, 2^42 + 2, …` make the 1st and 3rd IDs identical strings,
because `2^42 + 1` is truncated to timestamp 1 by the 42-bit mask while
the sequence restarts at 0. -/
theorem C7_duplicate_counterexample :
    List.Pairwise (· ≤ ·)
      (1 :: 1 :: 4398046511105 :: ((List.range 9997).map fun i => 4398046511106 + i)) ∧
    (generate_many ⟨0, 0⟩ (List.replicate 10000 0)
        (1 :: 1 :: 4398046511105 :: ((List.range 9997).map fun i => 4398046511106 + i))).map
        (fun p => (p.1.length, (p.1.map base64_encode_u64).get? 0,
          (p.1.map base64_encode_u64).get? 2, p.2.2)) =
      some (10000, some (base64_encode_u64 (pack 1 0 0)),
        some (base64_encode_u64 (pack 1 0 0)), []) := by
  constructor
  · have hmem : ∀ x ∈ (List.range 9997).map fun i => 4398046511106 + i,
        4398046511106 ≤ x := by
      intro x hx
      rw [List.mem_map] at hx
      obtain ⟨i, _, rfl⟩ := hx
      omega
    have hmap_pw : List.Pairwise (· ≤ ·) ((List.range 9997).map fun i => 4398046511106 + i) :=
      (List.pairwise_lt_range 9997).map _ (fun a b h => by omega)
    refine List.pairwise_cons.mpr ⟨?_, List.pairwise_cons.mpr ⟨?_,
      List.pairwise_cons.mpr ⟨fun b hb => le_trans (by omega) (hmem b hb), hmap_pw⟩⟩⟩
    · intro b hb
      rcases List.mem_cons.mp hb with rfl | hb
      · omega
      rcases List.mem_cons.mp hb with rfl | hb
      · omega
      · exact le_trans (by omega) (hmem b hb)
    · intro b hb
      rcases List.mem_cons.mp hb with rfl | hb
      · omega
      · exact le_trans (by omega) (hmem b hb)
  · have h1 : ∀ rs : List Nat, generate_tiny64_value ⟨0, 0⟩ 0 (1 :: rs) =
        some (pack 1 0 0, ⟨1, 0⟩, rs) := fun rs => by
      rw [generate_tiny64_value, if_neg (by dsimp only; omega), generate_random_10bit_zero]
    have h2 : ∀ rs : List Nat, generate_tiny64_value ⟨1, 0⟩ 0 (1 :: rs) =
        some (pack 1 1 0, ⟨1, 1⟩, rs) := fun rs => by
      rw [generate_tiny64_value, if_pos rfl]
      dsimp only
      rw [show (0 + 1) % 4096 = 1 from rfl, if_neg (by omega), generate_random_10bit_zero]
    have h3 : ∀ rs : List Nat, generate_tiny64_value ⟨1, 1⟩ 0 (4398046511105 :: rs) =
        some (pack 4398046511105 0 0, ⟨4398046511105, 0⟩, rs) := fun rs => by
      rw [generate_tiny64_value, if_neg (by dsimp only; omega), generate_random_10bit_zero]
    obtain ⟨vs3, hvs3, hlen3⟩ := newMs_run 9996 4398046511105 0 4398046511106 (by omega)
    rw [show (9996 + 1 : Nat) = 9997 from rfl] at hvs3 hlen3
    rw [show (4398046511106 + 9996 : Nat) = 4398046521102 from rfl] at hvs3
    have g3 := generate_many_cons _ _ _ _ _ _ _
      (h3 ((List.range 9997).map fun i => 4398046511106 + i)) _ _ _ hvs3
    have g2 := generate_many_cons _ _ _ _ _ _ _
      (h2 (4398046511105 :: (List.range 9997).map fun i => 4398046511106 + i)) _ _ _ g3
    have g1 := generate_many_cons _ _ _ _ _ _ _
      (h1 (1 :: 4398046511105 :: (List.range 9997).map fun i => 4398046511106 + i)) _ _ _ g2
    rw [show List.replicate 10000 0 = 0 :: 0 :: 0 :: List.replicate 9997 0 from rfl, g1]
    have hpack : pack 4398046511105 0 0 = pack 1 0 0 := by decide
    rw [hpack, Option.map_some']
    dsimp only
    rw [List.length_cons, List.length_cons, List.length_cons, hlen3,
      show (9997 + 1 + 1 + 1 : Nat) = 10000 from rfl]
    rfl

/-! ### Errors and the command line -/

/-- C9: `current_time_ms` aborts (in the model: `none`) exactly when the
system clock reports a time before the Unix epoch; otherwise it returns
the truncated millisecond count; and every identifier value a successful
generation call returns encodes to a complete 11-character alphabet
string — never a partial one. -/
theorem C9_epoch_error :
    (∀ t : Int, t < 0 → current_time_ms t = none) ∧
    (∀ t : Int, 0 ≤ t → current_time_ms t = some (t.toNat % 2 ^ 64)) ∧
    (∀ st h reads v st2 reads2,
      generate_tiny64_value st h reads = some (v, st2, reads2) →
      (base64_encode_u64 v).length = 11 ∧ ∀ c ∈ base64_encode_u64 v, c ∈ BASE64_ALPHABET) := by
  refine ⟨fun t ht => by rw [current_time_ms, if_pos ht],
    fun t ht => by rw [current_time_ms, if_neg (by omega)], ?_⟩
  intro st h reads v st2 reads2 _
  exact ⟨base64_encode_length v, base64_encode_mem v⟩

theorem C9_epoch_error_witness :
    current_time_ms (-5) = none ∧ current_time_ms 7 = some ((7 : Int).toNat % 2 ^ 64) :=
  ⟨C9_epoch_error.1 (-5) (by norm_num), C9_epoch_error.2.1 7 (by norm_num)⟩

/-- C10: invoked with any first command-line argument other than `-h` or
`--help`, the program reports no error: it prints one identifier followed
by a newline and exits with code 0, exactly as if invoked with no
arguments; only the first argument is ever examined. -/
theorem C10_unknown_argument (prog a id : String) (rest rest2 : List String)
    (h1 : a ≠ "-h") (h2 : a ≠ "--help") :
    main_model (prog :: a :: rest) id = (MainOutput.idLine (id ++ "\n"), 0) ∧
    main_model (prog :: a :: rest) id = main_model [prog] id ∧
    main_model (prog :: a :: rest) id = main_model (prog :: a :: rest2) id := by
  have hc : ∀ rs : List String,
      main_model (prog :: a :: rs) id = (MainOutput.idLine (id ++ "\n"), 0) := by
    intro rs
    rw [main_model, if_neg]
    rw [show (prog :: a :: rs).getD 1 "" = a from rfl]
    rintro ⟨-, h | h⟩
    exacts [h1 h, h2 h]
  have hnone : main_model [prog] id = (MainOutput.idLine (id ++ "\n"), 0) := by
    rw [main_model, if_neg]
    rintro ⟨hlen, -⟩
    simp at hlen
  exact ⟨hc rest, by rw [hc rest, hnone], by rw [hc rest, hc rest2]⟩

theorem C10_unknown_argument_witness :
    main_model ["tiny64", "-x"] "abc" = (MainOutput.idLine ("abc" ++ "\n"), 0) :=
  (C10_unknown_argument "tiny64" "-x" "abc" [] [] (by decide) (by decide)).1

end Tiny64
